import Mathlib

/-
  Shallow embedding of the technical-indicator engine in
  src/stock_research/utils/calculations.py.

  Prices are modelled as exact rationals (the Bollinger-band function, whose
  code takes a real square root, is modelled over the reals).  Python round
  with a digit count is modelled as round-half-to-even on the scaled value.
  Division in the embedding is total field division; the one place where the
  source can raise ZeroDivisionError on meaningful data, the clustering step,
  is modelled in the Except monad.
-/

namespace StockResearch

/-- Round to the nearest integer, ties to even, as Python round does. -/
def rnd {α : Type} [LinearOrderedField α] [FloorRing α] (x : α) : ℤ :=
  if x - ⌊x⌋ < 1/2 then ⌊x⌋
  else if 1/2 < x - ⌊x⌋ then ⌊x⌋ + 1
  else if ⌊x⌋ % 2 = 0 then ⌊x⌋ else ⌊x⌋ + 1

/-- Model of Python round(x, n): round half to even at n decimal digits. -/
def roundTo {α : Type} [LinearOrderedField α] [FloorRing α] (n : ℕ) (x : α) : α :=
  ((rnd (x * 10 ^ n) : ℤ) : α) / 10 ^ n

theorem floor_le_rnd {α : Type} [LinearOrderedField α] [FloorRing α] (x : α) :
    ⌊x⌋ ≤ rnd x := by
  unfold rnd
  split
  · exact le_refl _
  · split
    · omega
    · split <;> omega

theorem rnd_le_floor_add_one {α : Type} [LinearOrderedField α] [FloorRing α] (x : α) :
    rnd x ≤ ⌊x⌋ + 1 := by
  unfold rnd
  split
  · omega
  · split
    · omega
    · split <;> omega

theorem rnd_of_frac_lt {α : Type} [LinearOrderedField α] [FloorRing α]
    {x : α} (h : x - ⌊x⌋ < 1/2) : rnd x = ⌊x⌋ := by
  unfold rnd
  rw [if_pos h]

theorem rnd_of_frac_gt {α : Type} [LinearOrderedField α] [FloorRing α]
    {x : α} (h : 1/2 < x - ⌊x⌋) : rnd x = ⌊x⌋ + 1 := by
  unfold rnd
  rw [if_neg (by linarith), if_pos h]

theorem rnd_mono {α : Type} [LinearOrderedField α] [FloorRing α]
    {x y : α} (h : x ≤ y) : rnd x ≤ rnd y := by
  have hxy : ⌊x⌋ ≤ ⌊y⌋ := Int.floor_le_floor h
  rcases eq_or_lt_of_le hxy with hf | hf
  · have hcast : (⌊x⌋ : α) = (⌊y⌋ : α) := by exact_mod_cast hf
    have hfrac : x - ⌊x⌋ ≤ y - ⌊y⌋ := by rw [← hcast]; linarith
    by_cases h1 : x - ⌊x⌋ < 1/2
    · rw [rnd_of_frac_lt h1, hf]
      exact floor_le_rnd y
    · push_neg at h1
      rcases lt_or_eq_of_le h1 with hgt | heq
      · have hy : 1/2 < y - ⌊y⌋ := lt_of_lt_of_le hgt hfrac
        rw [rnd_of_frac_gt hgt, rnd_of_frac_gt hy, hf]
      · rcases lt_or_eq_of_le hfrac with hfy | hfy
        · have hy : 1/2 < y - ⌊y⌋ := by rw [← heq] at hfy; exact hfy
          rw [rnd_of_frac_gt hy]
          calc rnd x ≤ ⌊x⌋ + 1 := rnd_le_floor_add_one x
            _ = ⌊y⌋ + 1 := by rw [hf]
        · have hxyeq : x = y := by
            have : x - ⌊x⌋ = y - ⌊y⌋ := hfy
            rw [hcast] at this
            linarith
          rw [hxyeq]
  · calc rnd x ≤ ⌊x⌋ + 1 := rnd_le_floor_add_one x
      _ ≤ ⌊y⌋ := by omega
      _ ≤ rnd y := floor_le_rnd y

theorem abs_rnd_sub_le {α : Type} [LinearOrderedField α] [FloorRing α] (x : α) :
    |(rnd x : α) - x| ≤ 1/2 := by
  have hfl : (⌊x⌋ : α) ≤ x := Int.floor_le x
  have hfu : x < ⌊x⌋ + 1 := Int.lt_floor_add_one x
  unfold rnd
  split
  · rename_i h
    rw [abs_le]
    constructor <;> linarith
  · rename_i h
    push_neg at h
    split
    · rename_i h2
      rw [abs_le]
      push_cast
      constructor <;> linarith
    · rename_i h2
      push_neg at h2
      split <;> (rw [abs_le]; push_cast; constructor <;> linarith)

theorem roundTo_mono {α : Type} [LinearOrderedField α] [FloorRing α]
    (n : ℕ) {x y : α} (h : x ≤ y) : roundTo n x ≤ roundTo n y := by
  unfold roundTo
  have hp : (0:α) < 10 ^ n := by positivity
  have hm := rnd_mono (α := α) (mul_le_mul_of_nonneg_right h (le_of_lt hp))
  have : ((rnd (x * 10 ^ n) : ℤ) : α) ≤ ((rnd (y * 10 ^ n) : ℤ) : α) := by exact_mod_cast hm
  exact div_le_div_of_nonneg_right this hp.le

theorem abs_roundTo_sub_le {α : Type} [LinearOrderedField α] [FloorRing α]
    (n : ℕ) (x : α) : |roundTo n x - x| ≤ 1 / (2 * 10 ^ n) := by
  have hp : (0:α) < 10 ^ n := by positivity
  have h1 := abs_rnd_sub_le (x * 10 ^ n)
  have h2 : roundTo n x - x = ((rnd (x * 10 ^ n) : ℤ) - x * 10 ^ n) / 10 ^ n := by
    unfold roundTo
    field_simp
    ring
  rw [h2, abs_div, abs_of_pos hp, div_le_div_iff hp (by positivity)]
  calc |((rnd (x * 10 ^ n) : ℤ) : α) - x * 10 ^ n| * (2 * 10 ^ n)
      ≤ (1/2) * (2 * 10 ^ n) := by
        apply mul_le_mul_of_nonneg_right h1
        positivity
    _ = 10 ^ n := by ring
    _ ≤ 1 * 10 ^ n := by linarith

theorem rnd_eq_of_lt_half {α : Type} [LinearOrderedField α] [FloorRing α]
    {x : α} (m : ℤ) (h1 : (m : α) ≤ x) (h2 : x < m + 1/2) : rnd x = m := by
  have hf : ⌊x⌋ = m := Int.floor_eq_iff.mpr ⟨h1, by push_cast; linarith⟩
  rw [rnd_of_frac_lt (by rw [hf]; linarith)]
  exact hf

theorem rnd_eq_of_gt_half {α : Type} [LinearOrderedField α] [FloorRing α]
    {x : α} (m : ℤ) (h1 : (m : α) - 1/2 < x) (h2 : x ≤ m) : rnd x = m := by
  rcases lt_or_eq_of_le h2 with hlt | heq
  · have hf : ⌊x⌋ = m - 1 := by
      apply Int.floor_eq_iff.mpr
      constructor
      · push_cast; linarith
      · push_cast; linarith
    rw [rnd_of_frac_gt (by rw [hf]; push_cast; linarith)]
    omega
  · have hf : ⌊x⌋ = m := by
      apply Int.floor_eq_iff.mpr
      constructor
      · rw [heq]
      · push_cast; linarith
    rw [rnd_of_frac_lt (by rw [hf, heq]; linarith)]
    exact hf

theorem roundTo_eq_down {α : Type} [LinearOrderedField α] [FloorRing α]
    (n : ℕ) (x : α) (m : ℤ) (h1 : (m : α) ≤ x * 10 ^ n) (h2 : x * 10 ^ n < m + 1/2) :
    roundTo n x = (m : α) / 10 ^ n := by
  unfold roundTo
  rw [rnd_eq_of_lt_half m h1 h2]

theorem roundTo_eq_up {α : Type} [LinearOrderedField α] [FloorRing α]
    (n : ℕ) (x : α) (m : ℤ) (h1 : (m : α) - 1/2 < x * 10 ^ n) (h2 : x * 10 ^ n ≤ m) :
    roundTo n x = (m : α) / 10 ^ n := by
  unfold roundTo
  rw [rnd_eq_of_gt_half m h1 h2]

/-- calculate_sma from calculations.py. -/
def calculate_sma (prices : List ℚ) (period : ℕ) : Option ℚ :=
  if prices.length < period then none
  else some (roundTo 2 ((prices.take period).sum / period))

/-- calculate_ema from calculations.py. -/
def calculate_ema (prices : List ℚ) (period : ℕ) : Option ℚ :=
  if prices.length < period then none
  else
    let prices_rev := prices.reverse
    let multiplier : ℚ := 2 / ((period : ℚ) + 1)
    let seed := (prices_rev.take period).sum / period
    some (roundTo 2 ((prices_rev.drop period).foldl
      (fun ema price => price * multiplier + ema * (1 - multiplier)) seed))

/-- Successive differences of a list, as the RSI loop computes them. -/
def diffs : List ℚ → List ℚ
  | a :: b :: t => (b - a) :: diffs (b :: t)
  | _ => []

/-- Wilder smoothing loop of calculate_rsi. -/
def wilder (period : ℕ) (seed : ℚ) (rest : List ℚ) : ℚ :=
  rest.foldl (fun avg x => (avg * ((period : ℚ) - 1) + x) / period) seed

/-- calculate_rsi from calculations.py. -/
def calculate_rsi (prices : List ℚ) (period : ℕ) : Option ℚ :=
  if prices.length < period + 1 then none
  else
    let prices_rev := prices.reverse
    let ds := diffs prices_rev
    let gains := ds.map (fun c => if 0 < c then c else 0)
    let losses := ds.map (fun c => if 0 < c then 0 else |c|)
    if gains.length < period then none
    else
      let avg_gain := wilder period ((gains.take period).sum / period) (gains.drop period)
      let avg_loss := wilder period ((losses.take period).sum / period) (losses.drop period)
      if avg_loss = 0 then some 100
      else some (roundTo 2 (100 - 100 / (1 + avg_gain / avg_loss)))

/-- Result record of calculate_pivot_points. -/
structure PivotPoints where
  pivot : ℚ
  r1 : ℚ
  r2 : ℚ
  r3 : ℚ
  s1 : ℚ
  s2 : ℚ
  s3 : ℚ
deriving DecidableEq, Repr

/-- calculate_pivot_points from calculations.py. -/
def calculate_pivot_points (high low close : ℚ) : PivotPoints :=
  let pivot := (high + low + close) / 3
  { pivot := roundTo 2 pivot
    r1 := roundTo 2 (2 * pivot - low)
    r2 := roundTo 2 (pivot + (high - low))
    r3 := roundTo 2 (high + 2 * (pivot - low))
    s1 := roundTo 2 (2 * pivot - high)
    s2 := roundTo 2 (pivot - (high - low))
    s3 := roundTo 2 (low - 2 * (high - pivot)) }

/-- Result record of calculate_macd. -/
structure MACDResult where
  macd : Option ℚ
  signal : Option ℚ
  histogram : Option ℚ
deriving DecidableEq, Repr

/-- calculate_macd from calculations.py.  The running EMA lists built by
appending in the source loops are List.scanl of the smoothing step. -/
def calculate_macd (prices : List ℚ) (fast_period slow_period signal_period : ℕ) :
    MACDResult :=
  if prices.length < slow_period + signal_period then ⟨none, none, none⟩
  else
    let prices_rev := prices.reverse
    let fast_mult : ℚ := 2 / ((fast_period : ℚ) + 1)
    let fast_emas := (prices_rev.drop fast_period).scanl
      (fun ema price => price * fast_mult + ema * (1 - fast_mult))
      ((prices_rev.take fast_period).sum / fast_period)
    let slow_mult : ℚ := 2 / ((slow_period : ℚ) + 1)
    let slow_emas : List (Option ℚ) :=
      List.replicate (slow_period - fast_period) none ++
        ((prices_rev.drop slow_period).scanl
          (fun ema price => price * slow_mult + ema * (1 - slow_mult))
          ((prices_rev.take slow_period).sum / slow_period)).map some
    let macd_line := (fast_emas.zip slow_emas).filterMap
      (fun pr => pr.2.map (fun slow => pr.1 - slow))
    if macd_line.length < signal_period then ⟨none, none, none⟩
    else
      let signal_mult : ℚ := 2 / ((signal_period : ℚ) + 1)
      let signal := (macd_line.drop signal_period).foldl
        (fun s val => val * signal_mult + s * (1 - signal_mult))
        ((macd_line.take signal_period).sum / signal_period)
      let macd_val := macd_line.getLastD 0
      ⟨some (roundTo 4 macd_val), some (roundTo 4 signal),
        some (roundTo 4 (macd_val - signal))⟩

/-- Result record of calculate_bbands. -/
structure BBands where
  upper : Option ℝ
  middle : Option ℝ
  lower : Option ℝ

/-- calculate_bbands from calculations.py; the square root of the variance is
the real square root, matching the exponent one half in the source. -/
noncomputable def calculate_bbands (prices : List ℝ) (period : ℕ) (std_dev : ℝ) :
    BBands :=
  if prices.length < period then ⟨none, none, none⟩
  else
    let middle := (prices.take period).sum / (period : ℝ)
    let variance := ((prices.take period).map (fun p => (p - middle) ^ 2)).sum / (period : ℝ)
    let std := Real.sqrt variance
    ⟨some (roundTo 2 (middle + std_dev * std)),
      some (roundTo 2 middle),
      some (roundTo 2 (middle - std_dev * std))⟩

/-- A price bar as consumed by calculate_support_resistance. -/
structure Bar where
  high : ℚ
  low : ℚ
  close : ℚ
deriving DecidableEq, Repr

/-- Stable insert of the insertion sort used to model the stable Python
list sort. -/
def insertSorted {α : Type} (le : α → α → Bool) (x : α) : List α → List α
  | [] => [x]
  | y :: ys => if le x y then x :: y :: ys else y :: insertSorted le x ys

/-- Stable insertion sort, the model of Python sorted and list.sort. -/
def insertionSort {α : Type} (le : α → α → Bool) : List α → List α
  | [] => []
  | x :: xs => insertSorted le x (insertionSort le xs)

/-- The clustering loop of _cluster_levels.  Computing the relative distance
to the running cluster average divides by that average, so a zero average is
a ZeroDivisionError, modelled as the error outcome. -/
def clusterLoop (threshold : ℚ) :
    List ℚ → List ℚ → List (List ℚ) → Except Unit (List (List ℚ))
  | [], current_cluster, clusters => .ok (clusters ++ [current_cluster])
  | level :: rest, current_cluster, clusters =>
    let cluster_avg := current_cluster.sum / (current_cluster.length : ℚ)
    if cluster_avg = 0 then .error ()
    else if |level - cluster_avg| / cluster_avg ≤ threshold then
      clusterLoop threshold rest (current_cluster ++ [level]) clusters
    else
      clusterLoop threshold rest [level] (clusters ++ [current_cluster])

/-- _cluster_levels from calculations.py. -/
def cluster_levels (levels : List ℚ) (threshold : ℚ) : Except Unit (List ℚ) :=
  match insertionSort (fun a b => decide (a ≤ b)) levels with
  | [] => .ok []
  | first :: rest => do
    let clusters ← clusterLoop threshold rest [first] []
    let result := clusters.map (fun c => (roundTo 2 (c.sum / (c.length : ℚ)), c.length))
    let ranked := insertionSort (fun a b => decide (b.2 ≤ a.2)) result
    return ranked.map (fun r => r.1)

/-- The pivot-low scan of calculate_support_resistance: the source loops i
from 2 to len - 3 and keeps lows[i] when it is strictly below the two lows on
each side; here the same windows are enumerated by structural recursion. -/
def pivotLowScan : List ℚ → List ℚ
  | a :: b :: c :: d :: e :: rest =>
    (if c < b ∧ c < a ∧ c < d ∧ c < e then [c] else []) ++
      pivotLowScan (b :: c :: d :: e :: rest)
  | _ => []

/-- The pivot-high scan of calculate_support_resistance, symmetric to the
pivot-low scan with strict greater-than. -/
def pivotHighScan : List ℚ → List ℚ
  | a :: b :: c :: d :: e :: rest =>
    (if c > b ∧ c > a ∧ c > d ∧ c > e then [c] else []) ++
      pivotHighScan (b :: c :: d :: e :: rest)
  | _ => []

/-- calculate_support_resistance from calculations.py. -/
def calculate_support_resistance (prices : List Bar) (threshold : ℚ) :
    Except Unit (List ℚ × List ℚ) :=
  match prices with
  | [] => .ok ([], [])
  | _ => do
    let highs := prices.map (fun p => p.high)
    let lows := prices.map (fun p => p.low)
    let support_candidates := pivotLowScan lows
    let resistance_candidates := pivotHighScan highs
    let support_levels ← cluster_levels support_candidates threshold
    let resistance_levels ← cluster_levels resistance_candidates threshold
    return (insertionSort (fun a b => decide (b ≤ a)) support_levels,
      insertionSort (fun a b => decide (a ≤ b)) resistance_levels)

/-- Modelled from the spec: the arithmetic mean of a list of values, used to
state the spec side of the SMA and Bollinger middle-band claims. -/
def specMean {α : Type} [DivisionRing α] (l : List α) : α :=
  l.sum / l.length

/-- Modelled from the spec: the population variance of a list, dividing by
the length and not by length minus one. -/
noncomputable def specPopulationStd (l : List ℝ) : ℝ :=
  Real.sqrt ((l.map (fun p => (p - specMean l) ^ 2)).sum / l.length)

theorem diffs_length (l : List ℚ) : (diffs l).length = l.length - 1 := by
  induction l with
  | nil => rfl
  | cons a t ih =>
    cases t with
    | nil => rfl
    | cons b t2 =>
      simp only [diffs, List.length_cons]
      rw [ih]
      simp

/-- C1: every indicator signals insufficient data by an absent result and in
no other way: SMA and EMA are none exactly on series shorter than the period,
RSI exactly on series shorter than period plus one, MACD is all-none on
series shorter than slow plus signal period, Bollinger bands are all-none
exactly on series shorter than the period; the short-input path returns
before any arithmetic is reached. -/
theorem c1_absent_iff_insufficient (p f s g : ℕ)
    (l1 l2 l3 l4 : List ℚ) (l5 : List ℝ) (k : ℝ) (hp : 1 ≤ p) :
    (calculate_sma l1 p = none ↔ l1.length < p) ∧
    (calculate_ema l2 p = none ↔ l2.length < p) ∧
    (calculate_rsi l3 p = none ↔ l3.length < p + 1) ∧
    (l4.length < s + g → calculate_macd l4 f s g = ⟨none, none, none⟩) ∧
    (calculate_bbands l5 p k = ⟨none, none, none⟩ ↔ l5.length < p) := by
  refine ⟨?_, ?_, ?_, ?_, ?_⟩
  · unfold calculate_sma
    split <;> simp_all
  · unfold calculate_ema
    split <;> simp_all
  · unfold calculate_rsi
    split
    · simp_all
    · rename_i hc
      dsimp only
      split
      · rename_i h2
        rw [List.length_map, diffs_length, List.length_reverse] at h2
        omega
      · constructor
        · intro hnone
          split at hnone <;> simp_all
        · intro hlen
          omega
  · intro h
    unfold calculate_macd
    rw [if_pos h]
  · unfold calculate_bbands
    split <;> simp_all

theorem c1_absent_iff_insufficient_witness :
    (calculate_sma [] 1 = none ↔ List.length ([] : List ℚ) < 1) ∧
    (calculate_ema [] 1 = none ↔ List.length ([] : List ℚ) < 1) ∧
    (calculate_rsi [] 1 = none ↔ List.length ([] : List ℚ) < 1 + 1) ∧
    (List.length ([] : List ℚ) < 2 + 3 → calculate_macd [] 1 2 3 = ⟨none, none, none⟩) ∧
    (calculate_bbands [] 1 0 = ⟨none, none, none⟩ ↔ List.length ([] : List ℝ) < 1) :=
  c1_absent_iff_insufficient 1 1 2 3 [] [] [] [] [] 0 (by decide)

/-- C2 counterexample: at high = low = close = 10, which satisfies the
claimed hypothesis high at least low, every returned pivot level equals 10,
so the strict chain fails at its first link. -/
theorem c2_pivot_strict_chain_counterexample :
    ((10 : ℚ) ≥ 10) ∧
    ¬ ((calculate_pivot_points 10 10 10).r3 > (calculate_pivot_points 10 10 10).r2 ∧
      (calculate_pivot_points 10 10 10).r2 > (calculate_pivot_points 10 10 10).r1 ∧
      (calculate_pivot_points 10 10 10).r1 > (calculate_pivot_points 10 10 10).pivot ∧
      (calculate_pivot_points 10 10 10).pivot > (calculate_pivot_points 10 10 10).s1 ∧
      (calculate_pivot_points 10 10 10).s1 > (calculate_pivot_points 10 10 10).s2 ∧
      (calculate_pivot_points 10 10 10).s2 > (calculate_pivot_points 10 10 10).s3) := by
  have hr : roundTo 2 (10 : ℚ) = 10 := by
    rw [roundTo_eq_down 2 10 1000 (by norm_num) (by norm_num)]
    norm_num
  have e : calculate_pivot_points 10 10 10 = ⟨10, 10, 10, 10, 10, 10, 10⟩ := by
    simp only [calculate_pivot_points]
    norm_num [hr]
  refine ⟨le_refl 10, ?_⟩
  rw [e]
  intro hchain
  exact absurd hchain.1 (lt_irrefl 10)

/-- C2 amended: for a valid bar, low at most close at most high, the returned
rounded pivot levels satisfy the non-strict chain
r3 at least r2 at least r1 at least pivot at least s1 at least s2 at least s3;
rounding and degenerate bars can collapse neighbouring levels, so the strict
version fails. -/
theorem c2_pivot_chain_nonstrict (H L C : ℚ) (h1 : L ≤ C) (h2 : C ≤ H) :
    (calculate_pivot_points H L C).r2 ≤ (calculate_pivot_points H L C).r3 ∧
    (calculate_pivot_points H L C).r1 ≤ (calculate_pivot_points H L C).r2 ∧
    (calculate_pivot_points H L C).pivot ≤ (calculate_pivot_points H L C).r1 ∧
    (calculate_pivot_points H L C).s1 ≤ (calculate_pivot_points H L C).pivot ∧
    (calculate_pivot_points H L C).s2 ≤ (calculate_pivot_points H L C).s1 ∧
    (calculate_pivot_points H L C).s3 ≤ (calculate_pivot_points H L C).s2 := by
  simp only [calculate_pivot_points]
  refine ⟨?_, ?_, ?_, ?_, ?_, ?_⟩ <;> (apply roundTo_mono; linarith)

theorem c2_pivot_chain_nonstrict_witness :
    (calculate_pivot_points 12 10 11).r2 ≤ (calculate_pivot_points 12 10 11).r3 ∧
    (calculate_pivot_points 12 10 11).r1 ≤ (calculate_pivot_points 12 10 11).r2 ∧
    (calculate_pivot_points 12 10 11).pivot ≤ (calculate_pivot_points 12 10 11).r1 ∧
    (calculate_pivot_points 12 10 11).s1 ≤ (calculate_pivot_points 12 10 11).pivot ∧
    (calculate_pivot_points 12 10 11).s2 ≤ (calculate_pivot_points 12 10 11).s1 ∧
    (calculate_pivot_points 12 10 11).s3 ≤ (calculate_pivot_points 12 10 11).s2 :=
  c2_pivot_chain_nonstrict 12 10 11 (by norm_num) (by norm_num)

/-- C3: on a series of length exactly the period, the EMA equals the SMA:
the EMA seed is the simple average of the whole series and the smoothing
loop has nothing left to visit. -/
theorem c3_ema_equals_sma_at_seed (prices : List ℚ) (period : ℕ)
    (hp : 1 ≤ period) (hlen : prices.length = period) :
    calculate_ema prices period = calculate_sma prices period := by
  unfold calculate_ema calculate_sma
  rw [if_neg (by omega), if_neg (by omega)]
  have hdrop : prices.reverse.drop period = [] := by
    apply List.drop_eq_nil_of_le
    rw [List.length_reverse, hlen]
  have htake : prices.reverse.take period = prices.reverse := by
    apply List.take_of_length_le
    rw [List.length_reverse, hlen]
  dsimp only
  rw [hdrop, htake, List.foldl_nil, List.sum_reverse, List.take_of_length_le hlen.le]

theorem c3_ema_equals_sma_at_seed_witness :
    calculate_ema [5, 7] 2 = calculate_sma [5, 7] 2 :=
  c3_ema_equals_sma_at_seed [5, 7] 2 (by decide) (by decide)

theorem pivotLowScan_eq_nil {l : List ℚ} (h : l.length < 5) : pivotLowScan l = [] := by
  match l, h with
  | [], _ => rfl
  | [_], _ => rfl
  | [_, _], _ => rfl
  | [_, _, _], _ => rfl
  | [_, _, _, _], _ => rfl
  | a :: b :: c :: d :: e :: rest, h => simp at h; omega

theorem pivotHighScan_eq_nil {l : List ℚ} (h : l.length < 5) : pivotHighScan l = [] := by
  match l, h with
  | [], _ => rfl
  | [_], _ => rfl
  | [_, _], _ => rfl
  | [_, _, _], _ => rfl
  | [_, _, _, _], _ => rfl
  | a :: b :: c :: d :: e :: rest, h => simp at h; omega

/-- C8: with fewer than five bars, in particular with none at all, no index
has two neighbours on each side, both pivot scans are empty and the function
returns the pair of empty level lists. -/
theorem c8_few_bars_empty_levels (bars : List Bar) (t : ℚ) (h : bars.length < 5) :
    calculate_support_resistance bars t = .ok ([], []) := by
  cases bars with
  | nil => rfl
  | cons b rest =>
    have hl : (List.map (fun p => p.low) (b :: rest)).length < 5 := by
      rw [List.length_map]; exact h
    have hh : (List.map (fun p => p.high) (b :: rest)).length < 5 := by
      rw [List.length_map]; exact h
    unfold calculate_support_resistance
    dsimp only
    rw [pivotLowScan_eq_nil hl, pivotHighScan_eq_nil hh]
    rfl

theorem c8_few_bars_empty_levels_witness :
    calculate_support_resistance [] (1/50) = .ok ([], []) :=
  c8_few_bars_empty_levels [] (1/50) (by decide)

/-- C9: on a series at least as long as the period, the SMA is exactly the
arithmetic mean of the period most recent values rounded to two decimals. -/
theorem c9_sma_is_rounded_mean (prices : List ℚ) (period : ℕ)
    (hp : 1 ≤ period) (hlen : period ≤ prices.length) :
    calculate_sma prices period = some (roundTo 2 (specMean (prices.take period))) := by
  unfold calculate_sma specMean
  rw [if_neg (by omega)]
  rw [List.length_take, Nat.min_eq_left hlen]

theorem c9_sma_is_rounded_mean_witness :
    calculate_sma [100, 102, 104, 103, 101] 5 =
      some (roundTo 2 (specMean (List.take 5 [100, 102, 104, 103, 101]))) ∧
    calculate_sma [100, 102, 104, 103, 101] 5 = some 102 := by
  constructor
  · exact c9_sma_is_rounded_mean [100, 102, 104, 103, 101] 5 (by decide) (by decide)
  · unfold calculate_sma
    rw [if_neg (by simp)]
    simp only [List.take, List.sum_cons, List.sum_nil]
    rw [roundTo_eq_down 2 _ 10200 (by norm_num) (by norm_num)]
    norm_num

theorem diffs_pos {l : List ℚ} (h : List.Chain' (· < ·) l) :
    ∀ d ∈ diffs l, 0 < d := by
  induction l with
  | nil => intro d hd; simp [diffs] at hd
  | cons a t ih =>
    cases t with
    | nil => intro d hd; simp [diffs] at hd
    | cons b t2 =>
      rw [List.chain'_cons] at h
      intro d hd
      rw [diffs] at hd
      rcases List.mem_cons.mp hd with rfl | hd2
      · linarith [h.1]
      · exact ih h.2 d hd2

theorem wilder_zero (p : ℕ) (l : List ℚ) (h : ∀ x ∈ l, x = 0) :
    wilder p 0 l = 0 := by
  induction l with
  | nil => rfl
  | cons a t ih =>
    have ha : a = 0 := h a (List.mem_cons_self a t)
    unfold wilder at ih ⊢
    rw [List.foldl_cons, ha]
    simpa using ih (fun x hx => h x (List.mem_cons_of_mem a hx))

/-- C4: on a series whose prices strictly increase in chronological order,
hence strictly decrease in the most-recent-first input order, every loss term
is zero, the smoothed average loss stays zero and the RSI is exactly 100. -/
theorem c4_rsi_of_increasing (prices : List ℚ) (p : ℕ)
    (hp : 1 ≤ p) (hlen : p + 1 ≤ prices.length)
    (hmono : List.Chain' (fun a b => b < a) prices) :
    calculate_rsi prices p = some 100 := by
  unfold calculate_rsi
  rw [if_neg (by omega)]
  dsimp only
  have hg : ¬ ((List.map (fun c => if 0 < c then c else (0:ℚ)) (diffs prices.reverse)).length < p) := by
    rw [List.length_map, diffs_length, List.length_reverse]
    omega
  rw [if_neg hg]
  have hrev : List.Chain' (· < ·) prices.reverse := by
    rw [List.chain'_reverse]
    exact hmono
  have hdp := diffs_pos hrev
  have hloss : ∀ x ∈ List.map (fun c => if 0 < c then 0 else |c|) (diffs prices.reverse),
      x = (0:ℚ) := by
    intro x hx
    rcases List.mem_map.mp hx with ⟨c, hc, rfl⟩
    rw [if_pos (hdp c hc)]
  have hseed : (List.take p (List.map (fun c => if 0 < c then 0 else |c|)
      (diffs prices.reverse))).sum / (p:ℚ) = 0 := by
    rw [List.sum_eq_zero (fun x hx => hloss x (List.mem_of_mem_take hx))]
    simp
  have hzero : wilder p
      ((List.take p (List.map (fun c => if 0 < c then 0 else |c|) (diffs prices.reverse))).sum / (p:ℚ))
      (List.drop p (List.map (fun c => if 0 < c then 0 else |c|) (diffs prices.reverse))) = 0 := by
    rw [hseed]
    exact wilder_zero p _ (fun x hx => hloss x (List.mem_of_mem_drop hx))
  rw [if_pos hzero]

theorem c4_rsi_of_increasing_witness :
    calculate_rsi [3, 2, 1] 1 = some 100 :=
  c4_rsi_of_increasing [3, 2, 1] 1 (by decide) (by decide)
    (by norm_num [List.chain'_cons])

/-- C5: for a series at least period long and a non-negative width
multiplier, the Bollinger bands are present and ordered, the middle band is
the rounded mean of the period most recent values, and the upper and lower
bands add and subtract the width multiplier times the population standard
deviation of those values before rounding. -/
theorem c5_bbands_invariant (prices : List ℝ) (period : ℕ) (k : ℝ)
    (hp : 1 ≤ period) (hlen : period ≤ prices.length) (hk : 0 ≤ k) :
    ∃ u m lo, calculate_bbands prices period k = ⟨some u, some m, some lo⟩ ∧
      lo ≤ m ∧ m ≤ u ∧
      m = roundTo 2 (specMean (prices.take period)) ∧
      u = roundTo 2 (specMean (prices.take period) +
        k * specPopulationStd (prices.take period)) ∧
      lo = roundTo 2 (specMean (prices.take period) -
        k * specPopulationStd (prices.take period)) := by
  have hmean : specMean (prices.take period) = (prices.take period).sum / (period : ℝ) := by
    unfold specMean
    rw [List.length_take, Nat.min_eq_left hlen]
  have hstd : specPopulationStd (prices.take period) =
      Real.sqrt (((prices.take period).map
        (fun p => (p - (prices.take period).sum / (period : ℝ)) ^ 2)).sum / (period : ℝ)) := by
    unfold specPopulationStd
    rw [hmean, List.length_take, Nat.min_eq_left hlen]
  have hks : 0 ≤ k * Real.sqrt (((prices.take period).map
      (fun p => (p - (prices.take period).sum / (period : ℝ)) ^ 2)).sum / (period : ℝ)) :=
    mul_nonneg hk (Real.sqrt_nonneg _)
  have heval : calculate_bbands prices period k =
      ⟨some (roundTo 2 ((prices.take period).sum / (period : ℝ) +
          k * Real.sqrt (((prices.take period).map
            (fun p => (p - (prices.take period).sum / (period : ℝ)) ^ 2)).sum / (period : ℝ)))),
        some (roundTo 2 ((prices.take period).sum / (period : ℝ))),
        some (roundTo 2 ((prices.take period).sum / (period : ℝ) -
          k * Real.sqrt (((prices.take period).map
            (fun p => (p - (prices.take period).sum / (period : ℝ)) ^ 2)).sum / (period : ℝ))))⟩ := by
    unfold calculate_bbands
    rw [if_neg (by omega)]
  refine ⟨_, _, _, heval, ?_, ?_, ?_, ?_, ?_⟩
  · apply roundTo_mono
    linarith
  · apply roundTo_mono
    linarith
  · rw [hmean]
  · rw [hmean, hstd]
  · rw [hmean, hstd]

theorem c5_bbands_invariant_witness :
    ∃ u m lo, calculate_bbands [1, 1] 2 2 = ⟨some u, some m, some lo⟩ ∧
      lo ≤ m ∧ m ≤ u ∧
      m = roundTo 2 (specMean (List.take 2 [1, 1])) ∧
      u = roundTo 2 (specMean (List.take 2 [1, 1]) +
        2 * specPopulationStd (List.take 2 [1, 1])) ∧
      lo = roundTo 2 (specMean (List.take 2 [1, 1]) -
        2 * specPopulationStd (List.take 2 [1, 1])) :=
  c5_bbands_invariant [1, 1] 2 2 (by decide) (by decide) (by norm_num)

theorem calculate_macd_shape (prices : List ℚ) (f s g : ℕ) :
    calculate_macd prices f s g = ⟨none, none, none⟩ ∨
    ∃ mv sv, calculate_macd prices f s g =
      ⟨some (roundTo 4 mv), some (roundTo 4 sv), some (roundTo 4 (mv - sv))⟩ := by
  unfold calculate_macd
  split
  · left; rfl
  · dsimp only
    split
    · left; rfl
    · right
      exact ⟨_, _, rfl⟩

/-- C6: whenever calculate_macd returns values, the histogram was computed
as the unrounded latest MACD value minus the unrounded signal value before
all three fields were rounded to 4 decimals, so the returned histogram
differs from the difference of the returned macd and signal by strictly
less than one thousandth. -/
theorem c6_macd_histogram_identity (prices : List ℚ) (f s g : ℕ) (m sg h : ℚ)
    (heq : calculate_macd prices f s g = ⟨some m, some sg, some h⟩) :
    |h - (m - sg)| < 1/1000 := by
  rcases calculate_macd_shape prices f s g with h0 | ⟨mv, sv, h1⟩
  · rw [heq] at h0
    exact absurd (congrArg MACDResult.macd h0) (by simp)
  · rw [heq] at h1
    rw [MACDResult.mk.injEq, Option.some.injEq, Option.some.injEq, Option.some.injEq] at h1
    obtain ⟨hm, hs, hh⟩ := h1
    subst hm hs hh
    have b1 := abs_roundTo_sub_le 4 mv
    have b2 := abs_roundTo_sub_le 4 sv
    have b3 := abs_roundTo_sub_le 4 (mv - sv)
    norm_num at b1 b2 b3
    rw [abs_le] at b1 b2 b3
    rw [abs_lt]
    constructor <;> linarith

theorem c6_macd_histogram_identity_witness :
    calculate_macd [1, 1] 1 1 1 = ⟨some 0, some 0, some 0⟩ ∧
    |(0:ℚ) - (0 - 0)| < 1/1000 := by
  have hr0 : roundTo 4 (0:ℚ) = 0 := by
    rw [roundTo_eq_down 4 0 0 (by norm_num) (by norm_num)]
    norm_num
  have heval : calculate_macd [1, 1] 1 1 1 = ⟨some 0, some 0, some 0⟩ := by
    unfold calculate_macd
    norm_num [List.scanl, List.filterMap, List.zip, List.zipWith, hr0]
  exact ⟨heval, c6_macd_histogram_identity [1, 1] 1 1 1 0 0 0 heval⟩

theorem insertSorted_replicate (le : ℚ → ℚ → Bool) (v : ℚ) (h : le v v = true) (k : ℕ) :
    insertSorted le v (List.replicate k v) = List.replicate (k + 1) v := by
  cases k with
  | zero => rfl
  | succ k2 =>
    rw [List.replicate_succ, insertSorted, if_pos h]
    rfl

theorem insertionSort_replicate (le : ℚ → ℚ → Bool) (v : ℚ) (h : le v v = true) (n : ℕ) :
    insertionSort le (List.replicate n v) = List.replicate n v := by
  induction n with
  | zero => rfl
  | succ k ih =>
    rw [List.replicate_succ, insertionSort, ih, insertSorted_replicate le v h]
    rfl

theorem sum_replicate_div (k : ℕ) (v : ℚ) (hk : 1 ≤ k) :
    (List.replicate k v).sum / ((List.replicate k v).length : ℚ) = v := by
  rw [List.sum_replicate, List.length_replicate, nsmul_eq_mul]
  have : (k : ℚ) ≠ 0 := Nat.cast_ne_zero.mpr (by omega)
  field_simp

theorem clusterLoop_replicate (t v : ℚ) (hv : v ≠ 0) (ht : 0 ≤ t) (m : ℕ) :
    ∀ (k : ℕ), 1 ≤ k → ∀ (acc : List (List ℚ)),
    clusterLoop t (List.replicate m v) (List.replicate k v) acc =
      .ok (acc ++ [List.replicate (m + k) v]) := by
  induction m with
  | zero =>
    intro k hk acc
    rw [Nat.zero_add]
    rfl
  | succ m2 ih =>
    intro k hk acc
    rw [List.replicate_succ, clusterLoop]
    rw [sum_replicate_div k v hk]
    rw [if_neg hv, if_pos (by rw [sub_self, abs_zero, zero_div]; exact ht)]
    rw [← List.replicate_succ' k v]
    rw [ih (k + 1) (by omega) acc]
    have : m2 + (k + 1) = m2 + 1 + k := by omega
    rw [this]

theorem cluster_levels_replicate_eq (v t : ℚ) (n : ℕ)
    (hv : v ≠ 0) (ht : 0 ≤ t) (hn : 1 ≤ n) :
    cluster_levels (List.replicate n v) t = .ok [roundTo 2 v] := by
  obtain ⟨m, rfl⟩ : ∃ m, n = m + 1 := ⟨n - 1, by omega⟩
  unfold cluster_levels
  rw [insertionSort_replicate _ v (by simp) (m + 1), List.replicate_succ]
  dsimp only
  rw [show [v] = List.replicate 1 v from rfl,
    clusterLoop_replicate t v hv ht m 1 (by omega) []]
  show Except.ok [roundTo 2 ((List.replicate (m + 1) v).sum /
    ((List.replicate (m + 1) v).length : ℚ))] = _
  rw [sum_replicate_div (m + 1) v (by omega)]

/-- C7 amended: clustering n identical nonzero values v with threshold
t > 0 yields a single cluster whose representative is v rounded to two
decimals, which equals v itself only when v is already a two-decimal price;
a zero v would instead make the relative-distance division raise. -/
theorem c7_cluster_identical (v t : ℚ) (n : ℕ)
    (hv : v ≠ 0) (ht : 0 < t) (hn : 1 ≤ n) :
    cluster_levels (List.replicate n v) t = .ok [roundTo 2 v] :=
  cluster_levels_replicate_eq v t n hv ht.le hn

theorem c7_cluster_identical_witness :
    cluster_levels (List.replicate 3 (1/2)) (1/50) = .ok [roundTo 2 (1/2)] :=
  c7_cluster_identical (1/2) (1/50) 3 (by norm_num) (by norm_num) (by norm_num)

/-- C7 counterexample: clustering two copies of 1.234 with threshold 0.02
produces the single representative 1.23, the cluster average rounded to two
decimals, which is not the repeated value 1.234 itself. -/
theorem c7_cluster_identical_counterexample :
    cluster_levels [1234/1000, 1234/1000] (1/50) = .ok [123/100] ∧
    (123/100 : ℚ) ≠ 1234/1000 := by
  constructor
  · have h := cluster_levels_replicate_eq (1234/1000) (1/50) 2
      (by norm_num) (by norm_num) (by norm_num)
    have hrep : List.replicate 2 ((1234:ℚ)/1000) = [1234/1000, 1234/1000] := rfl
    rw [hrep] at h
    rw [h, roundTo_eq_down 2 (1234/1000) 123 (by norm_num) (by norm_num)]
    norm_num
  · norm_num

theorem mem_insertSorted (le : ℚ → ℚ → Bool) {x y : ℚ} :
    ∀ {l : List ℚ}, y ∈ insertSorted le x l → y = x ∨ y ∈ l := by
  intro l
  induction l with
  | nil =>
    intro h
    rw [insertSorted, List.mem_singleton] at h
    exact Or.inl h
  | cons a t ih =>
    intro h
    rw [insertSorted] at h
    split at h
    · rcases List.mem_cons.mp h with rfl | h2
      · exact Or.inl rfl
      · exact Or.inr h2
    · rcases List.mem_cons.mp h with rfl | h2
      · exact Or.inr (List.mem_cons_self _ _)
      · rcases ih h2 with rfl | h3
        · exact Or.inl rfl
        · exact Or.inr (List.mem_cons_of_mem _ h3)

theorem mem_insertionSort (le : ℚ → ℚ → Bool) {y : ℚ} :
    ∀ {l : List ℚ}, y ∈ insertionSort le l → y ∈ l := by
  intro l
  induction l with
  | nil => intro h; exact h
  | cons a t ih =>
    intro h
    rw [insertionSort] at h
    rcases mem_insertSorted le h with rfl | h2
    · exact List.mem_cons_self _ _
    · exact List.mem_cons_of_mem _ (ih h2)

theorem clusterLoop_ok_of_pos (t : ℚ) :
    ∀ (rest : List ℚ), ∀ (cur : List ℚ) (acc : List (List ℚ)),
    cur ≠ [] → (∀ x ∈ cur, 0 < x) → (∀ x ∈ rest, 0 < x) →
    ∃ r, clusterLoop t rest cur acc = .ok r := by
  intro rest
  induction rest with
  | nil =>
    intro cur acc _ _ _
    exact ⟨_, rfl⟩
  | cons a rest2 ih =>
    intro cur acc hne hcur hrest
    have hsum : 0 < cur.sum := List.sum_pos cur hcur hne
    have hlen : 0 < (cur.length : ℚ) := by
      exact_mod_cast List.length_pos.mpr hne
    have havg : 0 < cur.sum / (cur.length : ℚ) := div_pos hsum hlen
    rw [clusterLoop]
    rw [if_neg (ne_of_gt havg)]
    split
    · refine ih (cur ++ [a]) acc (by simp) ?_ ?_
      · intro x hx
        rcases List.mem_append.mp hx with h1 | h2
        · exact hcur x h1
        · rw [List.mem_singleton] at h2
          subst h2
          exact hrest _ (List.mem_cons_self _ _)
      · intro x hx
        exact hrest x (List.mem_cons_of_mem _ hx)
    · refine ih [a] (acc ++ [cur]) (by simp) ?_ ?_
      · intro x hx
        rw [List.mem_singleton] at hx
        subst hx
        exact hrest _ (List.mem_cons_self _ _)
      · intro x hx
        exact hrest x (List.mem_cons_of_mem _ hx)

theorem cluster_levels_ok_of_pos (levels : List ℚ) (t : ℚ)
    (h : ∀ x ∈ levels, 0 < x) : ∃ r, cluster_levels levels t = .ok r := by
  unfold cluster_levels
  cases hs : insertionSort (fun a b => decide (a ≤ b)) levels with
  | nil => exact ⟨[], rfl⟩
  | cons first rest =>
    have hmem : ∀ x ∈ first :: rest, 0 < x := by
      intro x hx
      apply h
      apply mem_insertionSort (fun a b => decide (a ≤ b))
      rw [hs]
      exact hx
    obtain ⟨r, hr⟩ := clusterLoop_ok_of_pos t rest [first] [] (by simp)
      (fun x hx => by
        rw [List.mem_singleton] at hx
        subst hx
        exact hmem _ (List.mem_cons_self _ _))
      (fun x hx => hmem x (List.mem_cons_of_mem _ hx))
    refine ⟨(insertionSort (fun a b => decide (b.2 ≤ a.2))
      (r.map (fun c => (roundTo 2 (c.sum / (c.length : ℚ)), c.length)))).map
        (fun x => x.1), ?_⟩
    dsimp only
    rw [hr]
    rfl

theorem pivotLowScan_subset : ∀ (l : List ℚ) (x : ℚ), x ∈ pivotLowScan l → x ∈ l := by
  intro l x
  induction l with
  | nil =>
    intro hx
    rw [pivotLowScan_eq_nil (by simp)] at hx
    exact absurd hx (List.not_mem_nil x)
  | cons a t ih =>
    intro hx
    cases t with
    | nil =>
      rw [pivotLowScan_eq_nil (by simp)] at hx
      exact absurd hx (List.not_mem_nil x)
    | cons b t2 =>
      cases t2 with
      | nil =>
        rw [pivotLowScan_eq_nil (by simp)] at hx
        exact absurd hx (List.not_mem_nil x)
      | cons c t3 =>
        cases t3 with
        | nil =>
          rw [pivotLowScan_eq_nil (by simp)] at hx
          exact absurd hx (List.not_mem_nil x)
        | cons d t4 =>
          cases t4 with
          | nil =>
            rw [pivotLowScan_eq_nil (by simp)] at hx
            exact absurd hx (List.not_mem_nil x)
          | cons e rest =>
            rw [pivotLowScan] at hx
            rcases List.mem_append.mp hx with h1 | h2
            · split at h1
              · rw [List.mem_singleton] at h1
                subst h1
                exact List.mem_cons_of_mem _ (List.mem_cons_of_mem _ (List.mem_cons_self _ _))
              · exact absurd h1 (List.not_mem_nil x)
            · exact List.mem_cons_of_mem _ (ih h2)

theorem pivotHighScan_subset : ∀ (l : List ℚ) (x : ℚ), x ∈ pivotHighScan l → x ∈ l := by
  intro l x
  induction l with
  | nil =>
    intro hx
    rw [pivotHighScan_eq_nil (by simp)] at hx
    exact absurd hx (List.not_mem_nil x)
  | cons a t ih =>
    intro hx
    cases t with
    | nil =>
      rw [pivotHighScan_eq_nil (by simp)] at hx
      exact absurd hx (List.not_mem_nil x)
    | cons b t2 =>
      cases t2 with
      | nil =>
        rw [pivotHighScan_eq_nil (by simp)] at hx
        exact absurd hx (List.not_mem_nil x)
      | cons c t3 =>
        cases t3 with
        | nil =>
          rw [pivotHighScan_eq_nil (by simp)] at hx
          exact absurd hx (List.not_mem_nil x)
        | cons d t4 =>
          cases t4 with
          | nil =>
            rw [pivotHighScan_eq_nil (by simp)] at hx
            exact absurd hx (List.not_mem_nil x)
          | cons e rest =>
            rw [pivotHighScan] at hx
            rcases List.mem_append.mp hx with h1 | h2
            · split at h1
              · rw [List.mem_singleton] at h1
                subst h1
                exact List.mem_cons_of_mem _ (List.mem_cons_of_mem _ (List.mem_cons_self _ _))
              · exact absurd h1 (List.not_mem_nil x)
            · exact List.mem_cons_of_mem _ (ih h2)

/-- C10: when every bar has strictly positive low and high, every candidate
level is positive, every running cluster average is positive, the division
in the clustering step is never by zero and the function returns normally;
without that precondition a pivot low of zero that opens a cluster makes the
clustering division divide by zero, so the call raises instead of
returning. -/
theorem c10_cluster_division_guard :
    (∀ (bars : List Bar) (t : ℚ), (∀ b ∈ bars, 0 < b.low ∧ 0 < b.high) →
      ∃ r, calculate_support_resistance bars t = .ok r) ∧
    calculate_support_resistance
      [⟨10, 5, 5⟩, ⟨10, 4, 5⟩, ⟨10, 0, 5⟩, ⟨10, 4, 5⟩, ⟨10, 5, 5⟩,
        ⟨10, 4, 5⟩, ⟨10, 1, 5⟩, ⟨10, 4, 5⟩, ⟨10, 5, 5⟩] (1/50) = .error () := by
  constructor
  · intro bars t hpos
    cases bars with
    | nil => exact ⟨([], []), rfl⟩
    | cons b rest =>
      have hlow : ∀ x ∈ List.map (fun p => p.low) (b :: rest), 0 < x := by
        intro x hx
        rcases List.mem_map.mp hx with ⟨bb, hbb, rfl⟩
        exact (hpos bb hbb).1
      have hhigh : ∀ x ∈ List.map (fun p => p.high) (b :: rest), 0 < x := by
        intro x hx
        rcases List.mem_map.mp hx with ⟨bb, hbb, rfl⟩
        exact (hpos bb hbb).2
      obtain ⟨rs, hrs⟩ := cluster_levels_ok_of_pos
        (pivotLowScan (List.map (fun p => p.low) (b :: rest))) t
        (fun x hx => hlow x (pivotLowScan_subset _ x hx))
      obtain ⟨rr, hrr⟩ := cluster_levels_ok_of_pos
        (pivotHighScan (List.map (fun p => p.high) (b :: rest))) t
        (fun x hx => hhigh x (pivotHighScan_subset _ x hx))
      refine ⟨(insertionSort (fun a b => decide (b ≤ a)) rs,
        insertionSort (fun a b => decide (a ≤ b)) rr), ?_⟩
      unfold calculate_support_resistance
      dsimp only
      rw [hrs, hrr]
      rfl
  · have hm : List.map (fun p => p.low)
        ([⟨10, 5, 5⟩, ⟨10, 4, 5⟩, ⟨10, 0, 5⟩, ⟨10, 4, 5⟩, ⟨10, 5, 5⟩,
          ⟨10, 4, 5⟩, ⟨10, 1, 5⟩, ⟨10, 4, 5⟩, ⟨10, 5, 5⟩] : List Bar) =
        [5, 4, 0, 4, 5, 4, 1, 4, 5] := rfl
    have hscan : pivotLowScan [(5:ℚ), 4, 0, 4, 5, 4, 1, 4, 5] = [0, 1] := by
      norm_num [pivotLowScan]
    have hsort : insertionSort (fun a b => decide (a ≤ b)) [(0:ℚ), 1] = [0, 1] := by
      norm_num [insertionSort, insertSorted]
    have hloop : clusterLoop (1/50) [(1:ℚ)] [0] [] = .error () := by
      rw [clusterLoop]
      norm_num
    have hcl : cluster_levels [(0:ℚ), 1] (1/50) = .error () := by
      unfold cluster_levels
      rw [hsort]
      dsimp only
      rw [hloop]
      rfl
    unfold calculate_support_resistance
    dsimp only
    rw [hm, hscan, hcl]
    rfl

theorem c10_cluster_division_guard_witness :
    ∃ r, calculate_support_resistance [⟨2, 1, 1⟩] 1 = .ok r :=
  c10_cluster_division_guard.1 [⟨2, 1, 1⟩] 1 (by
    intro b hb
    rw [List.mem_singleton] at hb
    subst hb
    norm_num)

end StockResearch
